import Mathlib

/-!
Shallow embedding of the pipe library (pipe.go): the `State` with its
pending-flush registry, the `Flusher` contract, the `FlushAll` orchestrator,
the `Script` and `Line` composition operators, the reference-counted
`refCloser`, the environment operations, and the `Filter` line transform.

Modelling conventions:
* Go strings are byte slices; they are modelled as `List Char`.
* Stream handles are identified values (`Stream`); junction endpoints made by
  `io.Pipe` carry an allocation counter (`State.next`) standing in for Go's
  pointer identity, so distinct junctions have distinct endpoints.
* Concurrency in `FlushAll` is modelled by quantifying over the arrival order
  of completion signals on the `done` channel (a permutation of the registry
  indices); the loop body is a fold over that order, exactly mirroring the
  receive loop of the source.
* Mutation through pointers is modelled by explicit state passing.  The one
  place where slice aliasing is itself the property of interest (the captured
  environment of `AddFlusher` versus in-place writes of `SetEnvVar`) has a
  dedicated heap-based model in namespace `Alias`.
-/

namespace Pipe

/-- Go strings are byte slices; modelled as lists of characters. -/
abbrev Str := List Char

/-- `error` values; only nil/non-nil and identity matter, we carry a message. -/
abbrev Err := String

/-- Stream endpoints.  `ext` are outside streams (output buffers, the initial
empty stdin reader) which do not implement `io.Closer`; `pr n`/`pw n` are the
reader and writer ends of the `io.Pipe` junction number `n` made by `Line`. -/
inductive Stream where
  | ext : Nat → Stream
  | pr : Nat → Stream
  | pw : Nat → Stream
deriving DecidableEq, Repr

/-- The `io.Closer` type assertion on a stream: junction endpoints are
closers, external streams are not. -/
def toCloser : Stream → Option Stream
  | .ext _ => none
  | .pr n => some (.pr n)
  | .pw n => some (.pw n)

/-- The part of a `State` captured by `AddFlusher` (stream handles, current
directory, environment).  The captured copy of the registry is never consulted
by the code, so the snapshot keeps these fields. -/
structure StateCore where
  Stdin : Stream
  Stdout : Stream
  Stderr : Stream
  Dir : Str
  Env : List Str

/-- A flusher's `Flush` method as a function of the captured state.  The
`Kill` method has no result; its invocations are counted by the orchestrator
model (`FlushLoop.kills`). -/
abbrev Flusher := StateCore → Option Err

/-- `pendingFlush`: a flusher bound to its captured state snapshot, the
refCloser ids registered via `closeWhenDone`, and the wait-dependencies added
by `Script`.  The source stores a dependency as a `wg.Add(1)` on the waiter
plus an entry in the other side's follower list `wf`; the model records the
same edge set as `waits` (registry indices) on the waiter. -/
structure pendingFlush where
  s : StateCore
  f : Flusher
  c : List Nat
  waits : List Nat

instance : Inhabited pendingFlush :=
  ⟨⟨⟨.ext 0, .ext 0, .ext 0, [], []⟩, fun _ => none, [], []⟩⟩

/-- The pipe `State`: three stream handles, current directory, environment,
and the pending-flush registry.  `next` is the embedding's fresh-identity
allocator for `io.Pipe` endpoints (Go uses heap pointer identity). -/
structure State where
  Stdin : Stream
  Stdout : Stream
  Stderr : Stream
  Dir : Str
  Env : List Str
  pendingFlushes : List pendingFlush
  next : Nat

/-- The captured portion of a state. -/
def State.core (s : State) : StateCore :=
  ⟨s.Stdin, s.Stdout, s.Stderr, s.Dir, s.Env⟩

/-- A `Pipe` function: configure the state, possibly mutating it, and return
an error if configuration itself fails (mutations made before the failure
persist, as with a Go pointer receiver). -/
abbrev Pipe := State → State × Option Err

/-- `AddFlusher`: capture a shallow copy of the live state — the environment
copied by value (`append([]string(nil), s.Env...)`) — and append a new
`pendingFlush` to the registry. -/
def State.AddFlusher (s : State) (f : Flusher) : State :=
  { s with pendingFlushes := s.pendingFlushes ++ [⟨s.core, f, [], []⟩] }

/-! ### Environment operations -/

/-- The lookup loop of `State.EnvVar`: first entry with the given
`name=`-style prefix wins; empty string when absent. -/
def envVarLoop (pre : Str) : List Str → Str
  | [] => []
  | kv :: rest => if pre.isPrefixOf kv then kv.drop pre.length else envVarLoop pre rest

/-- `EnvVar` returns the value for the named environment variable. -/
def State.EnvVar (s : State) (name : Str) : Str :=
  envVarLoop (name ++ ['=']) s.Env

/-- The update loop of `State.SetEnvVar`: overwrite the first entry with the
given prefix, else append a new entry. -/
def setEnvVarLoop (pre value : Str) : List Str → List Str
  | [] => [pre ++ value]
  | kv :: rest =>
    if pre.isPrefixOf kv then (pre ++ value) :: rest
    else kv :: setEnvVarLoop pre value rest

/-- `SetEnvVar` sets the named environment variable to the given value. -/
def State.SetEnvVar (s : State) (name value : Str) : State :=
  { s with Env := setEnvVarLoop (name ++ ['=']) value s.Env }

/-! ### FlushAll (the orchestrator) -/

/-- The result of one registered entry's `Flush` on its captured state. -/
def flushResult (pf : pendingFlush) : Option Err := pf.f pf.s

/-- Observable state of `FlushAll`'s receive loop: the `first` collected
error, the number of `Kill` invocations issued to each registered entry's
flusher, and how many completion signals have been received. -/
structure FlushLoop where
  first : Option Err
  kills : List Nat
  received : Nat

/-- One iteration of the receive loop: take one error off the `done` channel;
on the first non-nil error, record it and invoke `Kill` once on every
registered flusher. -/
def flushAllStep (st : FlushLoop) (err : Option Err) : FlushLoop :=
  match err, st.first with
  | some e, none =>
      { first := some e, kills := st.kills.map (· + 1), received := st.received + 1 }
  | _, _ => { st with received := st.received + 1 }

/-- The flush results in channel-arrival order, for a given arrival order of
registry indices. -/
def arrivalErrs (pfs : List pendingFlush) (arrival : List Nat) : List (Option Err) :=
  arrival.map fun i => (pfs.get? i).elim none flushResult

/-- The whole receive loop of `FlushAll` over `n` registered entries. -/
def flushAllRun (n : Nat) (errs : List (Option Err)) : FlushLoop :=
  errs.foldl flushAllStep ⟨none, List.replicate n 0, 0⟩

/-- `FlushAll`, parametrised by the arrival order of completion signals:
returns the observable loop outcome and the state with the registry
cleared (`s.pendingFlushes = nil`). -/
def State.FlushAll (s : State) (arrival : List Nat) : FlushLoop × State :=
  (flushAllRun s.pendingFlushes.length (arrivalErrs s.pendingFlushes arrival),
   { s with pendingFlushes := [] })

/-- First non-nil element of a list of optional errors. -/
def firstSome : List (Option Err) → Option Err
  | [] => none
  | some e :: _ => some e
  | none :: rest => firstSome rest

/-! ### Script (sequential composition) -/

/-- `pendingFlush.waitFor`: record that this entry must wait for the entry at
registry index `wi`. -/
def pendingFlush.waitFor (pf : pendingFlush) (wi : Nat) : pendingFlush :=
  { pf with waits := pf.waits ++ [wi] }

/-- The wait-wiring of one `Script` stage: every entry with index in
`[oldLen, newLen)` waits for every entry with index in `[startLen, oldLen)`.
`base` is the index of the first list element. -/
def addWaitsGo (startLen oldLen newLen : Nat) : Nat → List pendingFlush → List pendingFlush
  | _, [] => []
  | fi, pf :: rest =>
    (if oldLen ≤ fi ∧ fi < newLen then
        (List.range' startLen (oldLen - startLen)).foldl pendingFlush.waitFor pf
      else pf) :: addWaitsGo startLen oldLen newLen (fi + 1) rest

/-- The stage loop of `Script`: run each stage; on a configuration error
return it at once; otherwise wire the wait-dependencies of the entries the
stage added. -/
def scriptLoop (startLen : Nat) : List Pipe → State → State × Option Err
  | [], s => (s, none)
  | p :: rest, s =>
    let oldLen := s.pendingFlushes.length
    match p s with
    | (s1, some err) => (s1, some err)
    | (s1, none) =>
      let newLen := s1.pendingFlushes.length
      scriptLoop startLen rest
        { s1 with pendingFlushes := addWaitsGo startLen oldLen newLen 0 s1.pendingFlushes }

/-- `Script`: snapshot directory and environment, run the stages in order with
wait-dependency wiring, and restore directory and environment on exit
(success or failure; the source uses `defer`). -/
def Script (ps : List Pipe) : Pipe := fun s =>
  let dir := s.Dir
  let env := s.Env
  let r := scriptLoop s.pendingFlushes.length ps s
  ({ r.1 with Dir := dir, Env := env }, r.2)

/-- A pipe that only appends to the pending-flush registry, leaving the
existing entries untouched (every pipe of the library does). -/
def PipeExtends (p : Pipe) : Prop :=
  ∀ s : State, s.pendingFlushes <+: (p s).1.pendingFlushes

/-! ### refCloser and Line (parallel composition) -/

/-- `refCloser`: a shared stream endpoint plus a reference count.  The count
is the source's `refs int32`, kept as an `Int` whose value is reduced into
the two's-complement int32 range `[-2^31, 2^31)` after every update. -/
structure refCloser where
  c : Stream
  refs : Int
deriving DecidableEq

/-- Two's-complement int32 wraparound: reduce an integer into
`[-2147483648, 2147483648)` (that is, `[-2^31, 2^31)`), as Go's `int32`
arithmetic does. -/
def wrap32 (z : Int) : Int :=
  (z + 2147483648) % 4294967296 - 2147483648

/-- One `Close` call on a non-nil refCloser: decrement the int32 count
(`atomic.AddInt32(&rc.refs, -1)`, which wraps on overflow); report whether
this call reached zero and hence closed the underlying endpoint.
`io.PipeReader.Close` and `io.PipeWriter.Close` always return a nil error, so
the endpoint's own close error is always nil and is not carried. -/
def refCloser.Close (rc : refCloser) : refCloser × Bool :=
  let refs := wrap32 (rc.refs - 1)
  (⟨rc.c, refs⟩, refs == 0)

/-- `k` sequential `Close` calls, counting how many of them actually closed
the underlying endpoint. -/
def closeN : Nat → refCloser → refCloser × Nat
  | 0, rc => (rc, 0)
  | k + 1, rc =>
    let r1 := rc.Close
    let r2 := closeN k r1.1
    (r2.1, (if r1.2 then 1 else 0) + r2.2)

/-- `refCloser.uses` through the store: a possibly-nil refCloser (an optional
index into the store) uses closer `c` iff it is non-nil and wraps `c`
(`rc != nil && rc.c == c`). -/
def rcUses (rcs : List refCloser) (o : Option Nat) (c : Stream) : Bool :=
  match o with
  | none => false
  | some i =>
    match rcs.get? i with
    | some rc => rc.c == c
    | none => false

/-- `refCloser.Close` through the store: a nil receiver is a no-op; otherwise
decrement, and when the count reaches zero append the endpoint to the log of
closed streams. -/
def rcClose (o : Option Nat) (rcs : List refCloser) (closed : List Stream) :
    List refCloser × List Stream :=
  match o with
  | none => (rcs, closed)
  | some i =>
    match rcs.get? i with
    | none => (rcs, closed)
    | some rc =>
      let r := rc.Close
      (rcs.set i r.1, if r.2 then closed ++ [rc.c] else closed)

/-- `pendingFlush.closeWhenDone`: register refCloser id `i` to be released on
this entry's completion. -/
def pendingFlush.closeWhenDone (pf : pendingFlush) (i : Nat) : pendingFlush :=
  { pf with c := pf.c ++ [i] }

/-- One `uses`-and-attach check from `Line`'s scan: if the captured stream is
an `io.Closer` equal to the refCloser's endpoint, bump the expected-release
count (`refs++`) and register the refCloser on the entry. -/
def attach (oI : Option Nat) (str : Stream) (pf : pendingFlush) (rcs : List refCloser) :
    pendingFlush × List refCloser :=
  match oI with
  | none => (pf, rcs)
  | some i =>
    match toCloser str, rcs.get? i with
    | some c, some rc =>
      if rc.c == c then (pf.closeWhenDone i, rcs.set i ⟨rc.c, rc.refs + 1⟩)
      else (pf, rcs)
    | _, _ => (pf, rcs)

/-- The three checks `Line` performs on one newly added entry: its captured
stdin against this junction's reader, its captured stdout and stderr against
this junction's writer. -/
def lineScanOne (inI outI : Option Nat) (pf : pendingFlush) (rcs : List refCloser) :
    pendingFlush × List refCloser :=
  let a1 := attach inI pf.s.Stdin pf rcs
  let a2 := attach outI a1.1.s.Stdout a1.1 a1.2
  attach outI a2.1.s.Stderr a2.1 a2.2

/-- `Line`'s scan over the indices of the entries a stage newly added. -/
def lineScanAll (inI outI : Option Nat) (acc : List pendingFlush × List refCloser) :
    List Nat → List pendingFlush × List refCloser
  | [] => acc
  | fi :: fis =>
    match acc.1.get? fi with
    | none => lineScanAll inI outI acc fis
    | some pf =>
      let r := lineScanOne inI outI pf acc.2
      lineScanAll inI outI (acc.1.set fi r.1, r.2) fis

/-- The threaded state of a `Line` run: the pipe `State`, the store of
refClosers allocated by this call, and the log of endpoints actually closed
so far (in close order). -/
structure LineSt where
  s : State
  rcs : List refCloser
  closed : List Stream

/-- The stage loop of `Line`.  For stage `i`: wrap the previous junction's
reader (if any) in a fresh refCloser `closeIn`; for a non-final stage create a
new junction, point stdout at its writer and wrap the writer in `closeOut`;
run the stage; on a configuration error release `closeIn` and return the
error at once (this is the whole error path of the source); otherwise scan
the newly added entries, release `closeIn` and `closeOut`, and point stdin at
the new junction's reader for the next stage. -/
def lineLoop (endIdx : Nat) (endStdout : Stream) :
    List Pipe → Nat → Option Stream → LineSt → LineSt × Option Err
  | [], _, _, st => (st, none)
  | p :: rest, i, rPrev, st =>
    let closeInI : Option Nat := rPrev.map fun _ => st.rcs.length
    let rcs1 := match rPrev with
      | none => st.rcs
      | some r => st.rcs ++ [⟨r, 1⟩]
    let isEnd := i == endIdx
    let rNew : Option Stream := if isEnd then none else some (.pr st.s.next)
    let closeOutI : Option Nat := if isEnd then none else some rcs1.length
    let rcs2 := if isEnd then rcs1 else rcs1 ++ [⟨.pw st.s.next, 1⟩]
    let stdout2 := if isEnd then endStdout else Stream.pw st.s.next
    let next2 := if isEnd then st.s.next else st.s.next + 1
    let s2 : State := { st.s with Stdout := stdout2, next := next2 }
    let oldLen := s2.pendingFlushes.length
    match p s2 with
    | (s3, some err) =>
      let r := rcClose closeInI rcs2 st.closed
      ({ s := s3, rcs := r.1, closed := r.2 }, some err)
    | (s3, none) =>
      let newLen := s3.pendingFlushes.length
      let scan := lineScanAll closeInI closeOutI (s3.pendingFlushes, rcs2)
          (List.range' oldLen (newLen - oldLen))
      let r1 := rcClose closeInI scan.2 st.closed
      let r2 := rcClose closeOutI r1.1 r1.2
      let s4 : State := { s3 with pendingFlushes := scan.1 }
      let s5 : State := if i < endIdx then { s4 with Stdin := Stream.pr st.s.next } else s4
      lineLoop endIdx endStdout rest (i + 1) rNew { s := s5, rcs := r2.1, closed := r2.2 }

/-- A full `Line` run, exposing the refCloser store and the close log:
snapshot directory and environment, run the junction-wiring stage loop, and
restore directory and environment on exit (success or failure; the source
uses `defer`). -/
def lineRunFull (ps : List Pipe) (s : State) : LineSt × Option Err :=
  let dir := s.Dir
  let env := s.Env
  let r := lineLoop (ps.length - 1) s.Stdout ps 0 none ⟨s, [], []⟩
  ({ r.1 with s := { r.1.s with Dir := dir, Env := env } }, r.2)

/-- `Line` as a pipe. -/
def Line (ps : List Pipe) : Pipe := fun s =>
  ((lineRunFull ps s).1.s, (lineRunFull ps s).2)

/-! ### The aliasing model of AddFlusher / SetEnvVar

The property of C7 is about Go slice aliasing: `AddFlusher` copies the
environment by value, so a later in-place write by `SetEnvVar` on the live
state cannot reach the captured copy.  To state this faithfully the
environment slices live in an explicit heap of arrays and states hold
references into it. -/

namespace Alias

/-- The heap of environment backing arrays; a reference is an index. -/
structure EnvHeap where
  arrays : List (List Str)

/-- Read the array a reference points at. -/
def EnvHeap.read (h : EnvHeap) (ref : Nat) : List Str :=
  (h.arrays.get? ref).getD []

/-- Allocate a fresh array, returning its reference. -/
def EnvHeap.alloc (h : EnvHeap) (a : List Str) : EnvHeap × Nat :=
  (⟨h.arrays ++ [a]⟩, h.arrays.length)

/-- Write through a reference (an in-place array store). -/
def EnvHeap.write (h : EnvHeap) (ref : Nat) (a : List Str) : EnvHeap :=
  ⟨h.arrays.set ref a⟩

/-- The aliasing-relevant part of a live `State`: its environment reference
and the environment references captured by its registered pending flushes. -/
structure AState where
  envRef : Nat
  pending : List Nat

/-- `AddFlusher` in the aliasing model: the shallow copy `pf.s = *s` is
followed by `pf.s.Env = append([]string(nil), s.Env...)`, i.e. the captured
entry gets a freshly allocated copy of the live environment's contents. -/
def AddFlusher (h : EnvHeap) (s : AState) : (EnvHeap × AState) × Nat :=
  let a := h.alloc (h.read s.envRef)
  ((a.1, { s with pending := s.pending ++ [a.2] }), a.2)

/-- `SetEnvVar` in the aliasing model: overwrite the first matching entry in
place (`s.Env[i] = ...`, a write through the live state's array reference),
else append (`s.Env = append(s.Env, ...)`, modelled as a reallocation). -/
def SetEnvVar (h : EnvHeap) (s : AState) (name value : Str) : EnvHeap × AState :=
  let pre := name ++ ['=']
  let env := h.read s.envRef
  match env.findIdx? (fun kv => pre.isPrefixOf kv) with
  | some i => (h.write s.envRef (env.set i (pre ++ value)), s)
  | none =>
    let a := h.alloc (env ++ [pre ++ value])
    (a.1, { s with envRef := a.2 })

end Alias

/-! ### Filter (line-oriented transform) -/

/-- `bytes.TrimRight(line, "\r\n")`: strip trailing CR/LF bytes. -/
def trimRightCRLF (l : Str) : Str :=
  (l.reverse.dropWhile fun ch => ch == '\r' || ch == '\n').reverse

/-- The flush loop of the `Filter` stage: repeatedly `ReadBytes('\n')`; at
end-of-stream with an empty line, stop; apply the predicate to the line with
trailing CR/LF stripped, emitting the original line bytes when it accepts;
stop after the final (unterminated) fragment. -/
def Filter (f : String → Bool) : Str → Str
  | [] => []
  | a :: as =>
    let pre := (a :: as).takeWhile fun ch => ch != '\n'
    match hr : (a :: as).dropWhile fun ch => ch != '\n' with
    | [] => if f (String.mk (trimRightCRLF pre)) then pre else []
    | _ :: rs =>
      (if f (String.mk (trimRightCRLF (pre ++ ['\n']))) then pre ++ ['\n'] else []) ++
        Filter f rs
termination_by l => l.length
decreasing_by
  simp only [List.length_cons]
  have h1 : ((a :: as).dropWhile fun ch => ch != '\n').length ≤ (a :: as).length :=
    (List.dropWhile_sublist _).length_le
  rw [hr] at h1
  simp only [List.length_cons] at h1
  omega

/-- The parts of the input split on the line terminator (separator removed);
always nonempty, the last part being the unterminated final fragment
(possibly empty). -/
def linesCons (c : Char) (parts : List Str) : List Str :=
  if c = '\n' then [] :: parts
  else
    match parts with
    | [] => [[c]]
    | pHead :: ps => (c :: pHead) :: ps

/-- Split the input on the line terminator. -/
def linesOf (input : Str) : List Str := input.foldr linesCons [[]]

/-- The spec's description of the Filter stage: split the byte stream on the
line terminator; each terminated line keeps its original terminator bytes and
is emitted, in input order, exactly when the predicate accepts the line with
trailing CR/LF stripped; the final unterminated fragment before end-of-stream
is still delivered to the predicate once and emitted if accepted. -/
def filterSpec (f : String → Bool) (input : Str) : Str :=
  (((linesOf input).dropLast.map fun p => p ++ ['\n']).filter
      fun l => f (String.mk (trimRightCRLF l))).flatten ++
    if (linesOf input).getLastD [] ≠ []
        ∧ f (String.mk (trimRightCRLF ((linesOf input).getLastD []))) then
      (linesOf input).getLastD []
    else []

/-! ## Theorems -/

/-! ### Environment lookup and update (C8) -/

theorem envVarLoop_setEnvVarLoop (pre v : Str) (l : List Str) :
    envVarLoop pre (setEnvVarLoop pre v l) = v := by
  induction l with
  | nil =>
    have hp : pre.isPrefixOf (pre ++ v) := by
      rw [List.isPrefixOf_iff_prefix]
      exact List.prefix_append pre v
    simp [setEnvVarLoop, envVarLoop, hp, List.drop_left]
  | cons kv rest ih =>
    by_cases h : pre.isPrefixOf kv
    · have hp : pre.isPrefixOf (pre ++ v) := by
        rw [List.isPrefixOf_iff_prefix]
        exact List.prefix_append pre v
      simp [setEnvVarLoop, envVarLoop, h, hp, List.drop_left]
    · simp [setEnvVarLoop, envVarLoop, h, ih]

theorem envVarLoop_absent (pre : Str) (l : List Str)
    (h : ∀ kv ∈ l, ¬ pre.isPrefixOf kv) : envVarLoop pre l = [] := by
  induction l with
  | nil => rfl
  | cons kv rest ih =>
    have hkv : ¬ pre.isPrefixOf kv := h kv (List.mem_cons_self kv rest)
    simp only [envVarLoop, hkv, if_false]
    exact ih fun kv' hkv' => h kv' (List.mem_cons_of_mem kv hkv')

theorem setEnvVarLoop_absent (pre v : Str) (l : List Str)
    (h : ∀ kv ∈ l, ¬ pre.isPrefixOf kv) :
    setEnvVarLoop pre v l = l ++ [pre ++ v] := by
  induction l with
  | nil => rfl
  | cons kv rest ih =>
    have hkv : ¬ pre.isPrefixOf kv := h kv (List.mem_cons_self kv rest)
    have hrec := ih fun kv' hkv' => h kv' (List.mem_cons_of_mem kv hkv')
    simp [setEnvVarLoop, hkv, hrec]

theorem setEnvVarLoop_overwrite_first (pre v : Str) (l₁ : List Str) (kv : Str) (l₂ : List Str)
    (h₁ : ∀ kv' ∈ l₁, ¬ pre.isPrefixOf kv') (h₂ : pre.isPrefixOf kv) :
    setEnvVarLoop pre v (l₁ ++ kv :: l₂) = l₁ ++ (pre ++ v) :: l₂ := by
  induction l₁ with
  | nil => simp [setEnvVarLoop, h₂]
  | cons kv' rest ih =>
    have hkv' : ¬ pre.isPrefixOf kv' := h₁ kv' (List.mem_cons_self kv' rest)
    have hrec := ih fun x hx => h₁ x (List.mem_cons_of_mem kv' hx)
    simp [setEnvVarLoop, hkv', hrec]

/-- C8: `EnvVar` is a last-writer-wins lookup over the ordered environment
mapping: reading a name right after `SetEnvVar(name, v)` yields `v` for every
environment; it returns the empty string when no entry for the name exists;
and `SetEnvVar` overwrites the first existing entry with that name, otherwise
appends a new entry. -/
theorem envvar_setenvvar_spec :
    (∀ (s : State) (name value : Str),
        ((s.SetEnvVar name value).EnvVar name) = value)
    ∧ (∀ (s : State) (name : Str),
        (∀ kv ∈ s.Env, ¬ (name ++ ['=']).isPrefixOf kv) → s.EnvVar name = [])
    ∧ (∀ (s : State) (name value : Str),
        (∀ kv ∈ s.Env, ¬ (name ++ ['=']).isPrefixOf kv) →
          (s.SetEnvVar name value).Env = s.Env ++ [name ++ ['='] ++ value])
    ∧ (∀ (s : State) (name value : Str) (l₁ kv l₂),
        s.Env = l₁ ++ kv :: l₂ →
        (∀ kv' ∈ l₁, ¬ (name ++ ['=']).isPrefixOf kv') →
        (name ++ ['=']).isPrefixOf kv →
          (s.SetEnvVar name value).Env = l₁ ++ (name ++ ['='] ++ value) :: l₂) := by
  refine ⟨fun s name value => ?_, fun s name h => ?_, fun s name value h => ?_,
    fun s name value l₁ kv l₂ henv h₁ h₂ => ?_⟩
  · exact envVarLoop_setEnvVarLoop (name ++ ['=']) value s.Env
  · exact envVarLoop_absent (name ++ ['=']) s.Env h
  · exact setEnvVarLoop_absent (name ++ ['=']) value s.Env h
  · show setEnvVarLoop (name ++ ['=']) value s.Env = _
    rw [henv]
    exact setEnvVarLoop_overwrite_first (name ++ ['=']) value l₁ kv l₂ h₁ h₂

/-- A state with a small environment, for concrete instantiations. -/
def wsEnvState : State :=
  { Stdin := .ext 0, Stdout := .ext 1, Stderr := .ext 2, Dir := [],
    Env := ["B=2".data, "A=1".data], pendingFlushes := [], next := 0 }

theorem envvar_setenvvar_spec_witness :
    ((wsEnvState.SetEnvVar "A".data "7".data).EnvVar "A".data = "7".data)
    ∧ (wsEnvState.EnvVar "C".data = [])
    ∧ ((wsEnvState.SetEnvVar "C".data "7".data).Env = wsEnvState.Env ++ ["C=7".data])
    ∧ ((wsEnvState.SetEnvVar "A".data "9".data).Env =
        ["B=2".data] ++ ("A=9".data) :: []) :=
  ⟨envvar_setenvvar_spec.1 wsEnvState "A".data "7".data,
   envvar_setenvvar_spec.2.1 wsEnvState "C".data (by decide),
   envvar_setenvvar_spec.2.2.1 wsEnvState "C".data "7".data (by decide),
   envvar_setenvvar_spec.2.2.2 wsEnvState "A".data "9".data
     ["B=2".data] "A=1".data [] rfl (by decide) (by decide)⟩

/-! ### refCloser (C4, C10) -/

theorem wrap32_eq_self (z : Int) (h1 : -2147483648 ≤ z) (h2 : z < 2147483648) :
    wrap32 z = z := by
  unfold wrap32
  have h3 : 0 ≤ z + 2147483648 := by omega
  have h4 : z + 2147483648 < 4294967296 := by omega
  rw [Int.emod_eq_of_lt h3 h4]
  omega

/-- `k` releases from an in-range count `z` that stay above the int32
underflow boundary: the count descends to `z - k` without wrapping, and the
endpoint closes exactly when the descent crosses zero. -/
theorem closeN_descend (k : Nat) (c : Stream) (z : Int)
    (hz : z < 2147483648) (hk : -2147483648 ≤ z - (k : Int)) :
    (closeN k ⟨c, z⟩).2 = (if 1 ≤ z ∧ z ≤ (k : Int) then 1 else 0)
    ∧ (closeN k ⟨c, z⟩).1 = ⟨c, z - (k : Int)⟩ := by
  induction k generalizing z with
  | zero =>
    constructor
    · simp only [closeN]
      split
      · omega
      · rfl
    · simp [closeN]
  | succ k ih =>
    have hbound : -2147483648 ≤ z - 1 := by push_cast at hk; omega
    have hw : wrap32 (z - 1) = z - 1 := wrap32_eq_self (z - 1) hbound (by omega)
    have h1 : (closeN (k + 1) ⟨c, z⟩).2 =
        (if z - 1 == 0 then 1 else 0) + (closeN k ⟨c, z - 1⟩).2 := by
      simp [closeN, refCloser.Close, hw]
    have h2 : (closeN (k + 1) ⟨c, z⟩).1 = (closeN k ⟨c, z - 1⟩).1 := by
      simp [closeN, refCloser.Close, hw]
    have hk' : -2147483648 ≤ z - 1 - (k : Int) := by push_cast at hk; omega
    constructor
    · rw [h1, (ih (z - 1) (by omega) hk').1]
      have hb : (z - 1 == 0) = decide (z = 1) := by
        cases h : decide (z = 1) with
        | true => simp at h; simp [h]
        | false => simp at h; simp [beq_eq_false_iff_ne, sub_eq_zero, h]
      rw [hb]
      push_cast
      split_ifs <;> simp_all <;> omega
    · rw [h2, (ih (z - 1) (by omega) hk').2]
      congr 1
      push_cast
      omega

theorem closeN_add_snd (a b : Nat) : ∀ rc : refCloser,
    (closeN (a + b) rc).2 = (closeN a rc).2 + (closeN b (closeN a rc).1).2 := by
  induction a with
  | zero =>
    intro rc
    rw [Nat.zero_add]
    simp [closeN]
  | succ a ih =>
    intro rc
    have h : a + 1 + b = (a + b) + 1 := by omega
    rw [h]
    simp only [closeN]
    rw [ih]
    omega

theorem closeN_add_fst (a b : Nat) : ∀ rc : refCloser,
    (closeN (a + b) rc).1 = (closeN b (closeN a rc).1).1 := by
  induction a with
  | zero =>
    intro rc
    rw [Nat.zero_add]
    simp [closeN]
  | succ a ih =>
    intro rc
    have h : a + 1 + b = (a + b) + 1 := by omega
    rw [h]
    simp only [closeN]
    rw [ih]

/-- C4 counterexample: the claim as stated — any sequence of releases closes
the endpoint exactly once — is false of the int32 count.  A refCloser
initialised with count 1, given `1 + 2^32` releases, closes its endpoint a
second time: the count reaches zero on release 1, underflows past `-2^31`,
wraps to `2^31 - 1`, and descends to a second zero-crossing on release
`1 + 2^32`. -/
theorem refcloser_wrap_double_close_cex :
    (closeN (1 + 4294967296) ⟨Stream.ext 0, (1 : Int)⟩).2 = 2 := by
  have hsplit : (1 + 4294967296 : Nat) = 1 + (2147483648 + (1 + 2147483647)) := by norm_num
  rw [hsplit, closeN_add_snd 1 (2147483648 + (1 + 2147483647))]
  have hw0 : wrap32 0 = 0 := by norm_num [wrap32]
  have hA1 : (closeN 1 ⟨Stream.ext 0, (1 : Int)⟩).1 = ⟨Stream.ext 0, 0⟩ := by
    simp [closeN, refCloser.Close, hw0]
  have hA2 : (closeN 1 ⟨Stream.ext 0, (1 : Int)⟩).2 = 1 := by
    simp [closeN, refCloser.Close, hw0]
  rw [hA1, hA2, closeN_add_snd 2147483648 (1 + 2147483647)]
  obtain ⟨hB2, hB1⟩ := closeN_descend 2147483648 (Stream.ext 0) 0 (by norm_num)
    (by push_cast; try norm_num)
  have hB2' : (closeN 2147483648 ⟨Stream.ext 0, (0 : Int)⟩).2 = 0 := by
    rw [hB2]
    norm_num
  have hB1' : (closeN 2147483648 ⟨Stream.ext 0, (0 : Int)⟩).1
      = ⟨Stream.ext 0, -2147483648⟩ := by
    rw [hB1]
    simp only [refCloser.mk.injEq]
    refine ⟨trivial, ?_⟩
    push_cast
    try norm_num
  rw [hB2', hB1', closeN_add_snd 1 2147483647]
  have hwrap : wrap32 (-2147483649) = 2147483647 := by norm_num [wrap32]
  have hC1 : (closeN 1 ⟨Stream.ext 0, (-2147483648 : Int)⟩).1
      = ⟨Stream.ext 0, 2147483647⟩ := by
    simp [closeN, refCloser.Close, hwrap]
  have hC2 : (closeN 1 ⟨Stream.ext 0, (-2147483648 : Int)⟩).2 = 0 := by
    simp [closeN, refCloser.Close, hwrap]
  rw [hC1, hC2]
  obtain ⟨hD2, _⟩ := closeN_descend 2147483647 (Stream.ext 0) 2147483647 (by norm_num)
    (by push_cast; try norm_num)
  have hD2' : (closeN 2147483647 ⟨Stream.ext 0, (2147483647 : Int)⟩).2 = 1 := by
    rw [hD2]
    norm_num
  rw [hD2']

/-- C4 (amended): a refCloser initialised with reference count `N`
(`1 ≤ N < 2^31`), under any sequence of `k < N + 2^32` release calls, closes
its wrapped endpoint exactly once — on the `N`-th release, when the count
reaches zero — and every release beyond the `N`-th within that bound is a
no-op returning nil: the number of underlying closes is `1` when `N ≤ k` and
`0` before that.  At `N + 2^32` releases the int32 count wraps back to zero
and the endpoint is closed a second time (see the counterexample). -/
theorem refcloser_close_exactly_once (c : Stream) (N k : Nat)
    (hN1 : 1 ≤ N) (hN2 : N < 2147483648) (hk : k < N + 4294967296) :
    (closeN k ⟨c, (N : Int)⟩).2 = (if N ≤ k then 1 else 0)
    ∧ (closeN N ⟨c, (N : Int)⟩).1.refs = 0 := by
  constructor
  · by_cases hcase : k ≤ N + 2147483648
    · obtain ⟨h1, _⟩ := closeN_descend k c (N : Int) (by push_cast; omega)
        (by push_cast; omega)
      rw [h1]
      split_ifs with ha hb hb
      · rfl
      · exfalso
        push_cast at ha
        omega
      · exfalso
        apply ha
        push_cast
        omega
      · rfl
    · obtain ⟨j, rfl, hjlt⟩ : ∃ j : Nat, k = (N + 2147483648) + (1 + j) ∧ j < 2147483647 :=
        ⟨k - (N + 2147483648) - 1, by omega, by omega⟩
      rw [closeN_add_snd (N + 2147483648) (1 + j)]
      obtain ⟨hA2, hA1⟩ := closeN_descend (N + 2147483648) c (N : Int)
        (by push_cast; omega) (by push_cast; omega)
      have hcondA : (1 : Int) ≤ (N : Int) ∧ (N : Int) ≤ ((N + 2147483648 : Nat) : Int) := by
        push_cast
        omega
      have hA2' : (closeN (N + 2147483648) ⟨c, (N : Int)⟩).2 = 1 := by
        rw [hA2, if_pos hcondA]
      have hA1' : (closeN (N + 2147483648) ⟨c, (N : Int)⟩).1 = ⟨c, -2147483648⟩ := by
        rw [hA1]
        simp only [refCloser.mk.injEq]
        refine ⟨trivial, ?_⟩
        push_cast
        omega
      rw [hA2', hA1', closeN_add_snd 1 j]
      have hwrap : wrap32 (-2147483649) = 2147483647 := by norm_num [wrap32]
      have hC1 : (closeN 1 ⟨c, (-2147483648 : Int)⟩).1 = ⟨c, 2147483647⟩ := by
        simp [closeN, refCloser.Close, hwrap]
      have hC2 : (closeN 1 ⟨c, (-2147483648 : Int)⟩).2 = 0 := by
        simp [closeN, refCloser.Close, hwrap]
      rw [hC1, hC2]
      obtain ⟨hD2, _⟩ := closeN_descend j c 2147483647 (by norm_num)
        (by push_cast; omega)
      have hcondD : ¬ ((1 : Int) ≤ 2147483647 ∧ (2147483647 : Int) ≤ (j : Int)) := by
        push_cast
        omega
      have hD2' : (closeN j ⟨c, (2147483647 : Int)⟩).2 = 0 := by
        rw [hD2, if_neg hcondD]
      rw [hD2', if_pos (by omega : N ≤ N + 2147483648 + (1 + j))]
  · obtain ⟨_, h1⟩ := closeN_descend N c (N : Int) (by push_cast; omega)
      (by push_cast; omega)
    rw [h1]
    simp

theorem refcloser_close_exactly_once_witness :
    (closeN 3 ⟨Stream.ext 0, ((2 : Nat) : Int)⟩).2 = (if 2 ≤ 3 then 1 else 0)
    ∧ (closeN 2 ⟨Stream.ext 0, ((2 : Nat) : Int)⟩).1.refs = 0 :=
  refcloser_close_exactly_once (Stream.ext 0) 2 3 (by decide) (by decide) (by decide)

/-- `l.set i a = l` when `l` already holds `a` at `i`. -/
theorem set_get?_self {α : Type} : ∀ (l : List α) (i : Nat) (a : α),
    l.get? i = some a → l.set i a = l := by
  intro l
  induction l with
  | nil => intro i a h; cases h
  | cons x xs ih =>
    intro i a h
    cases i with
    | zero => simp only [List.get?] at h; cases h; rfl
    | succ j =>
      simp only [List.get?] at h
      simp [List.set, ih j a h]

theorem lineScanAll_none_none (acc : List pendingFlush × List refCloser) :
    ∀ fis, lineScanAll none none acc fis = acc := by
  intro fis
  induction fis generalizing acc with
  | nil => rfl
  | cons fi fis ih =>
    show lineScanAll none none acc (fi :: fis) = acc
    unfold lineScanAll
    cases h : acc.1.get? fi with
    | none => exact ih acc
    | some pf =>
      show lineScanAll none none (acc.1.set fi pf, acc.2) fis = acc
      rw [set_get?_self acc.1 fi pf h]
      exact ih acc

/-- C10: the nil-receiver methods of `refCloser` are safe and total — `uses`
on a nil refCloser is false and `Close` on a nil refCloser is a no-op that
touches no endpoint and reports no error — and consequently a single-stage
`Line`, whose first stage has no upstream junction reader and whose last
stage has no junction writer (both refClosers nil), closes no endpoint at
all during configuration. -/
theorem refcloser_nil_safe :
    (∀ (rcs : List refCloser) (c : Stream), rcUses rcs none c = false)
    ∧ (∀ (rcs : List refCloser) (closed : List Stream), rcClose none rcs closed = (rcs, closed))
    ∧ (∀ (p : Pipe) (s : State), (lineRunFull [p] s).1.closed = []) := by
  refine ⟨fun rcs c => rfl, fun rcs closed => rfl, fun p s => ?_⟩
  show (lineLoop 0 s.Stdout [p] 0 none ⟨s, [], []⟩).1.closed = []
  simp only [lineLoop]
  split
  · rfl
  · rfl

/-! ### Scope restoration (C5) -/

/-- C5: after `Script(...)` or `Line(...)` returns — whether with nil or with
an error — the state's current directory and environment equal their values
at entry, so mutations made by nested stages never leak into the enclosing
scope (the source snapshots both and restores them in a `defer`). -/
theorem script_line_restore_dir_env (ps : List Pipe) (s : State) :
    ((Script ps) s).1.Dir = s.Dir ∧ ((Script ps) s).1.Env = s.Env
    ∧ ((Line ps) s).1.Dir = s.Dir ∧ ((Line ps) s).1.Env = s.Env :=
  ⟨rfl, rfl, rfl, rfl⟩

/-! ### FlushAll (C1, C2) -/

theorem flushAllStep_received (st : FlushLoop) (err : Option Err) :
    (flushAllStep st err).received = st.received + 1 := by
  obtain ⟨f, ks, r⟩ := st
  cases err <;> cases f <;> rfl

theorem foldl_flushAllStep_some (errs : List (Option Err)) (e : Err) (ks : List Nat) (r : Nat) :
    errs.foldl flushAllStep ⟨some e, ks, r⟩ = ⟨some e, ks, r + errs.length⟩ := by
  induction errs generalizing r with
  | nil => rfl
  | cons err rest ih =>
    have hstep : flushAllStep ⟨some e, ks, r⟩ err = ⟨some e, ks, r + 1⟩ := by
      cases err <;> rfl
    rw [List.foldl_cons, hstep, ih, List.length_cons]
    congr 1
    omega

theorem foldl_flushAllStep_received (errs : List (Option Err)) (st : FlushLoop) :
    (errs.foldl flushAllStep st).received = st.received + errs.length := by
  induction errs generalizing st with
  | nil => rfl
  | cons err rest ih =>
    rw [List.foldl_cons, ih, flushAllStep_received, List.length_cons]
    omega

theorem foldl_flushAllStep_first (errs : List (Option Err)) (ks : List Nat) (r : Nat) :
    (errs.foldl flushAllStep ⟨none, ks, r⟩).first = firstSome errs := by
  induction errs generalizing ks r with
  | nil => rfl
  | cons err rest ih =>
    cases err with
    | some e =>
      rw [List.foldl_cons]
      have hstep : flushAllStep ⟨none, ks, r⟩ (some e) = ⟨some e, ks.map (· + 1), r + 1⟩ := rfl
      rw [hstep, foldl_flushAllStep_some]
      rfl
    | none =>
      rw [List.foldl_cons]
      have hstep : flushAllStep ⟨none, ks, r⟩ none = ⟨none, ks, r + 1⟩ := rfl
      rw [hstep]
      exact ih ks (r + 1)

theorem firstSome_all_none (errs : List (Option Err)) (h : ∀ e ∈ errs, e = none) :
    firstSome errs = none := by
  induction errs with
  | nil => rfl
  | cons e rest ih =>
    have he := h e (List.mem_cons_self e rest)
    subst he
    exact ih fun x hx => h x (List.mem_cons_of_mem none hx)

/-- C2: `FlushAll` returns nil when every registered entry's `Flush` returns
nil, and otherwise the first-detected non-nil error in the order completions
arrive (errors of concurrent siblings after the first are not surfaced); and
the state it returns has an empty pending-flush registry, so it can be
reused for a subsequent composition cycle. -/
theorem flushall_first_error_and_clears (s : State) (arrival : List Nat)
    (hperm : arrival.Perm (List.range s.pendingFlushes.length)) :
    (s.FlushAll arrival).1.first = firstSome (arrivalErrs s.pendingFlushes arrival)
    ∧ ((∀ pf ∈ s.pendingFlushes, flushResult pf = none) →
        (s.FlushAll arrival).1.first = none)
    ∧ (s.FlushAll arrival).2.pendingFlushes = [] := by
  refine ⟨foldl_flushAllStep_first _ _ _, fun hall => ?_, rfl⟩
  rw [show (s.FlushAll arrival).1.first = firstSome (arrivalErrs s.pendingFlushes arrival)
    from foldl_flushAllStep_first _ _ _]
  apply firstSome_all_none
  intro e he
  rcases List.mem_map.mp he with ⟨i, _, rfl⟩
  cases hgi : s.pendingFlushes.get? i with
  | none => simp [hgi]
  | some pf => simp [hgi, hall pf (List.get?_mem hgi)]

/-- One entry whose flush succeeds. -/
def wpfNil : pendingFlush := ⟨⟨.ext 0, .ext 1, .ext 2, [], []⟩, fun _ => none, [], []⟩

/-- One entry whose flush fails. -/
def wpfErr : pendingFlush := ⟨⟨.ext 0, .ext 1, .ext 2, [], []⟩, fun _ => some "boom", [], []⟩

/-- A state with two registered flushers, the second failing. -/
def wFlushState : State :=
  { Stdin := .ext 0, Stdout := .ext 1, Stderr := .ext 2, Dir := [], Env := [],
    pendingFlushes := [wpfNil, wpfErr], next := 0 }

theorem flushall_first_error_and_clears_witness :
    (wFlushState.FlushAll [1, 0]).1.first
        = firstSome (arrivalErrs wFlushState.pendingFlushes [1, 0])
    ∧ ((∀ pf ∈ wFlushState.pendingFlushes, flushResult pf = none) →
        (wFlushState.FlushAll [1, 0]).1.first = none)
    ∧ (wFlushState.FlushAll [1, 0]).2.pendingFlushes = [] :=
  flushall_first_error_and_clears wFlushState [1, 0] (by decide)

theorem foldl_flushAllStep_kills (errs : List (Option Err)) (ks : List Nat) (r : Nat)
    (h : ∃ e ∈ errs, e ≠ none) :
    (errs.foldl flushAllStep ⟨none, ks, r⟩).kills = ks.map (· + 1) := by
  induction errs generalizing ks r with
  | nil => rcases h with ⟨e, he, _⟩; cases he
  | cons err rest ih =>
    cases err with
    | some e =>
      rw [List.foldl_cons]
      have hstep : flushAllStep ⟨none, ks, r⟩ (some e) = ⟨some e, ks.map (· + 1), r + 1⟩ := rfl
      rw [hstep, foldl_flushAllStep_some]
    | none =>
      rw [List.foldl_cons]
      have hstep : flushAllStep ⟨none, ks, r⟩ none = ⟨none, ks, r + 1⟩ := rfl
      rw [hstep]
      apply ih
      rcases h with ⟨e, he, hne⟩
      rcases List.mem_cons.mp he with h1 | h2
      · exact absurd h1 hne
      · exact ⟨e, h2, hne⟩

/-- C1: when any registered entry's `Flush` returns a non-nil error during
`FlushAll`, `Kill` is invoked exactly once on every registered entry's
flusher — including entries whose `Flush` already completed — and the receive
loop consumes one completion signal per registered entry before returning,
so `FlushAll` returns only after every entry has terminated. -/
theorem flushall_kill_exactly_once (s : State) (arrival : List Nat)
    (hperm : arrival.Perm (List.range s.pendingFlushes.length))
    (herr : ∃ j pf, s.pendingFlushes.get? j = some pf ∧ flushResult pf ≠ none) :
    (s.FlushAll arrival).1.kills = List.replicate s.pendingFlushes.length 1
    ∧ (s.FlushAll arrival).1.received = s.pendingFlushes.length := by
  obtain ⟨j, pf, hj, hne⟩ := herr
  have hjlt : j < s.pendingFlushes.length := by
    rcases List.get?_eq_some.mp hj with ⟨hlt, _⟩
    exact hlt
  have hjarr : j ∈ arrival := hperm.mem_iff.mpr (List.mem_range.mpr hjlt)
  have hex : ∃ e ∈ arrivalErrs s.pendingFlushes arrival, e ≠ none := by
    refine ⟨(s.pendingFlushes.get? j).elim none flushResult,
      List.mem_map_of_mem _ hjarr, ?_⟩
    rw [hj]
    exact hne
  constructor
  · show (flushAllRun _ _).kills = _
    unfold flushAllRun
    rw [foldl_flushAllStep_kills _ _ _ hex, List.map_replicate]
  · show (flushAllRun _ _).received = _
    unfold flushAllRun
    rw [foldl_flushAllStep_received]
    have hlen : (arrivalErrs s.pendingFlushes arrival).length = arrival.length :=
      List.length_map _ _
    rw [hlen, hperm.length_eq, List.length_range]
    simp

theorem flushall_kill_exactly_once_witness :
    (wFlushState.FlushAll [1, 0]).1.kills
        = List.replicate wFlushState.pendingFlushes.length 1
    ∧ (wFlushState.FlushAll [1, 0]).1.received = wFlushState.pendingFlushes.length :=
  flushall_kill_exactly_once wFlushState [1, 0] (by decide) ⟨1, wpfErr, rfl, by decide⟩

/-! ### The environment snapshot of AddFlusher (C7) -/

theorem setEnvVar_read_other (h : Alias.EnvHeap) (s : Alias.AState)
    (name value : Str) (r : Nat) (hr : s.envRef ≠ r) (hrlt : r < h.arrays.length) :
    (Alias.SetEnvVar h s name value).1.read r = h.read r := by
  simp only [Alias.SetEnvVar]
  split
  · show ((h.arrays.set s.envRef _).get? r).getD [] = (h.arrays.get? r).getD []
    rw [List.get?_set_ne _ _ hr]
  · show (((h.arrays ++ [_]).get? r).getD []) = (h.arrays.get? r).getD []
    rw [List.get?_append hrlt]

/-- C7: `AddFlusher` appends a new pending-flush entry capturing a shallow
copy of the state whose environment mapping is copied by value; consequently
a later `SetEnvVar` applied to the live state — whether it overwrites a
matching entry in place through the live array reference, or appends — leaves
the captured entry's environment (what its `Flush` observes) unchanged. -/
theorem addflusher_snapshot_immune (h : Alias.EnvHeap) (s : Alias.AState)
    (name value : Str) (hv : s.envRef < h.arrays.length) :
    ((Alias.AddFlusher h s).1.2.pending = s.pending ++ [(Alias.AddFlusher h s).2])
    ∧ ((Alias.AddFlusher h s).1.1.read (Alias.AddFlusher h s).2 = h.read s.envRef)
    ∧ ((Alias.SetEnvVar (Alias.AddFlusher h s).1.1 (Alias.AddFlusher h s).1.2 name value).1.read
        (Alias.AddFlusher h s).2 = h.read s.envRef) := by
  have hcap : (Alias.AddFlusher h s).1.1.read (Alias.AddFlusher h s).2 = h.read s.envRef := by
    show ((h.arrays ++ [h.read s.envRef]).get? h.arrays.length).getD [] = _
    rw [List.get?_concat_length]
    rfl
  refine ⟨rfl, hcap, ?_⟩
  have hgoal : (Alias.SetEnvVar (Alias.AddFlusher h s).1.1 (Alias.AddFlusher h s).1.2
      name value).1.read h.arrays.length
      = (Alias.AddFlusher h s).1.1.read h.arrays.length := by
    refine setEnvVar_read_other _ _ name value h.arrays.length ?_ ?_
    · exact Nat.ne_of_lt hv
    · show h.arrays.length < (h.arrays ++ [h.read s.envRef]).length
      simp
  exact hgoal.trans hcap

/-- A one-entry heap for concrete instantiation of the aliasing property. -/
def wAliasHeap : Alias.EnvHeap := ⟨[["A=1".data]]⟩

/-- The live state pointing at the single array of `wAliasHeap`. -/
def wAliasState : Alias.AState := ⟨0, []⟩

/-! ### Concrete stages and states for instantiations -/

/-- A stage that configures nothing. -/
def pNop : Pipe := fun s => (s, none)

/-- A stage whose configuration always fails. -/
def pFail : Pipe := fun s => (s, some "boom")

/-- A fresh state with non-closer streams and an empty registry. -/
def s0 : State :=
  { Stdin := .ext 0, Stdout := .ext 1, Stderr := .ext 2, Dir := [], Env := [],
    pendingFlushes := [], next := 0 }

/-! ### Script wait-dependency wiring (C3) -/

theorem foldl_waitFor (l : List Nat) (pf : pendingFlush) :
    l.foldl pendingFlush.waitFor pf = { pf with waits := pf.waits ++ l } := by
  induction l generalizing pf with
  | nil => simp
  | cons a l ih =>
    rw [List.foldl_cons, ih]
    simp [pendingFlush.waitFor]

theorem addWaitsGo_length (startLen oldLen newLen : Nat) :
    ∀ (base : Nat) (l : List pendingFlush),
      (addWaitsGo startLen oldLen newLen base l).length = l.length := by
  intro base l
  induction l generalizing base with
  | nil => rfl
  | cons pf rest ih => simp [addWaitsGo, ih]

theorem addWaitsGo_get? (startLen oldLen newLen : Nat) :
    ∀ (l : List pendingFlush) (base i : Nat),
      (addWaitsGo startLen oldLen newLen base l).get? i
        = (l.get? i).map fun pf =>
            if oldLen ≤ base + i ∧ base + i < newLen then
              { pf with waits := pf.waits ++ List.range' startLen (oldLen - startLen) }
            else pf := by
  intro l
  induction l with
  | nil => intro base i; simp [addWaitsGo]
  | cons pf rest ih =>
    intro base i
    cases i with
    | zero =>
      simp only [addWaitsGo, List.get?_cons_zero, Option.map_some', Nat.add_zero]
      by_cases h : oldLen ≤ base ∧ base < newLen
      · rw [if_pos h, if_pos h, foldl_waitFor]
      · rw [if_neg h, if_neg h]
    | succ j =>
      simp only [addWaitsGo, List.get?_cons_succ]
      rw [ih (base + 1) j]
      have harith : base + 1 + j = base + (j + 1) := by omega
      rw [harith]

theorem get?_of_isPrefixOf {α : Type} {l₁ l₂ : List α} (h : l₁ <+: l₂) (i : Nat)
    (hi : i < l₁.length) : l₂.get? i = l₁.get? i := by
  obtain ⟨t, rfl⟩ := h
  rw [List.get?_append hi]

theorem prefix_of_get? {α : Type} (l₁ l₂ : List α) (hlen : l₁.length ≤ l₂.length)
    (h : ∀ i, i < l₁.length → l₂.get? i = l₁.get? i) : l₁ <+: l₂ := by
  rw [List.prefix_iff_eq_take]
  apply List.ext_get?
  intro i
  by_cases hi : i < l₁.length
  · rw [List.get?_take hi, h i hi]
  · have h₁ : l₁.get? i = none := List.get?_eq_none.mpr (by omega)
    have h₂ : (l₂.take l₁.length).get? i = none := by
      apply List.get?_eq_none.mpr
      rw [List.length_take]
      omega
    rw [h₁, h₂]

theorem scriptLoop_extends (startLen : Nat) :
    ∀ (ps : List Pipe) (s : State), (∀ p ∈ ps, PipeExtends p) →
      s.pendingFlushes <+: (scriptLoop startLen ps s).1.pendingFlushes := by
  intro ps
  induction ps with
  | nil => intro s _; exact List.prefix_refl _
  | cons p rest ih =>
    intro s hext
    have hp : PipeExtends p := hext p (List.mem_cons_self p rest)
    have hs1 := hp s
    rcases hps : p s with ⟨s1, e⟩
    rw [hps] at hs1
    cases e with
    | some err => simpa only [scriptLoop, hps] using hs1
    | none =>
      simp only [scriptLoop, hps]
      have hmid : s.pendingFlushes <+:
          (addWaitsGo startLen s.pendingFlushes.length s1.pendingFlushes.length 0
            s1.pendingFlushes) := by
        apply prefix_of_get?
        · rw [addWaitsGo_length]
          exact hs1.length_le
        · intro i hi
          rw [addWaitsGo_get? startLen s.pendingFlushes.length s1.pendingFlushes.length
            s1.pendingFlushes 0 i]
          rw [get?_of_isPrefixOf hs1 i hi]
          cases hgi : s.pendingFlushes.get? i with
          | none => rfl
          | some pf =>
            have hcond : ¬ (s.pendingFlushes.length ≤ 0 + i
                ∧ 0 + i < s1.pendingFlushes.length) := by omega
            simp only [Option.map_some']
            rw [if_neg hcond]
      exact hmid.trans
        (ih { s1 with pendingFlushes := (addWaitsGo startLen s.pendingFlushes.length
            s1.pendingFlushes.length 0 s1.pendingFlushes) }
          fun q hq => hext q (List.mem_cons_of_mem p hq))

theorem scriptLoop_waits (startLen : Nat) :
    ∀ (ps : List Pipe) (s : State), (∀ p ∈ ps, PipeExtends p) →
      startLen ≤ s.pendingFlushes.length →
      (scriptLoop startLen ps s).2 = none →
      ∀ fi wi : Nat, s.pendingFlushes.length ≤ fi →
        fi < (scriptLoop startLen ps s).1.pendingFlushes.length →
        startLen ≤ wi → wi < s.pendingFlushes.length →
        wi ∈ ((scriptLoop startLen ps s).1.pendingFlushes.getD fi default).waits := by
  intro ps
  induction ps with
  | nil =>
    intro s _ _ _ fi wi hfi1 hfi2 _ hwi2
    exfalso
    simp only [scriptLoop] at hfi2
    omega
  | cons p rest ih =>
    intro s hext hstart hsucc fi wi hfi1 hfi2 hwi1 hwi2
    have hp : PipeExtends p := hext p (List.mem_cons_self p rest)
    have hs1 := hp s
    rcases hps : p s with ⟨s1, e⟩
    rw [hps] at hs1
    cases e with
    | some err =>
      simp only [scriptLoop, hps] at hsucc
      cases hsucc
    | none =>
      simp only [scriptLoop, hps] at hsucc hfi2 ⊢
      have htail : ∀ q ∈ rest, PipeExtends q := fun q hq => hext q (List.mem_cons_of_mem p hq)
      have holdnew : s.pendingFlushes.length ≤ s1.pendingFlushes.length := hs1.length_le
      by_cases hcase : fi < s1.pendingFlushes.length
      · -- entry added by this stage: it received the wait-range here
        have hrest := scriptLoop_extends startLen rest
          { s1 with pendingFlushes := (addWaitsGo startLen s.pendingFlushes.length
              s1.pendingFlushes.length 0 s1.pendingFlushes) } htail
        have hget : (scriptLoop startLen rest
            { s1 with pendingFlushes := (addWaitsGo startLen s.pendingFlushes.length
                s1.pendingFlushes.length 0 s1.pendingFlushes) }).1.pendingFlushes.get? fi
            = (addWaitsGo startLen s.pendingFlushes.length s1.pendingFlushes.length 0
                s1.pendingFlushes).get? fi := by
          apply get?_of_isPrefixOf hrest fi
          rw [addWaitsGo_length]
          exact hcase
        obtain ⟨pfx, hpfx⟩ : ∃ pfx, s1.pendingFlushes.get? fi = some pfx := by
          cases hx : s1.pendingFlushes.get? fi with
          | none =>
            exfalso
            have := List.get?_eq_none.mp hx
            omega
          | some pfx => exact ⟨pfx, rfl⟩
        have hcond : s.pendingFlushes.length ≤ 0 + fi ∧ 0 + fi < s1.pendingFlushes.length := by
          omega
        rw [List.getD_eq_get?, hget,
          addWaitsGo_get? startLen s.pendingFlushes.length s1.pendingFlushes.length
            s1.pendingFlushes 0 fi, hpfx, Option.map_some', if_pos hcond, Option.getD_some]
        simp only [List.mem_append]
        right
        rw [List.mem_range'_1]
        omega
      · -- entry added by a later stage: apply the induction hypothesis
        apply ih { s1 with pendingFlushes := (addWaitsGo startLen s.pendingFlushes.length
            s1.pendingFlushes.length 0 s1.pendingFlushes) } htail ?_ hsucc fi wi ?_ hfi2 hwi1 ?_
        · show startLen ≤ (addWaitsGo startLen s.pendingFlushes.length
            s1.pendingFlushes.length 0 s1.pendingFlushes).length
          rw [addWaitsGo_length]
          omega
        · show (addWaitsGo startLen s.pendingFlushes.length
            s1.pendingFlushes.length 0 s1.pendingFlushes).length ≤ fi
          rw [addWaitsGo_length]
          omega
        · show wi < (addWaitsGo startLen s.pendingFlushes.length
            s1.pendingFlushes.length 0 s1.pendingFlushes).length
          rw [addWaitsGo_length]
          omega

theorem scriptLoop_append (startLen : Nat) :
    ∀ (qs rs : List Pipe) (s : State),
      scriptLoop startLen (qs ++ rs) s
        = match scriptLoop startLen qs s with
          | (s1, none) => scriptLoop startLen rs s1
          | (s1, some e) => (s1, some e) := by
  intro qs
  induction qs with
  | nil => intro rs s; rfl
  | cons p qs' ih =>
    intro rs s
    rcases hps : p s with ⟨s1, e⟩
    cases e with
    | some err => simp only [List.cons_append, scriptLoop, hps]
    | none =>
      simp only [List.cons_append, scriptLoop, hps]
      exact ih rs _

/-- C3: in `Script(p1..pn)`, every pending-flush entry newly added from stage
`k` on (`qs` being stages `1..k-1` of this call, `rs` the stages from `k`)
carries a wait-dependency on every entry that existed in this Script's scope
before stage `k` ran — the entire earlier portion of the scope, i.e. every
registry index from the length at `Script` entry up to the length after the
first `k-1` stages — so those flushers start only after all earlier stages'
flushers have completed. -/
theorem script_waits_on_earlier_stages (qs rs : List Pipe) (s : State)
    (hext : ∀ p ∈ qs ++ rs, PipeExtends p)
    (hsucc : (scriptLoop s.pendingFlushes.length (qs ++ rs) s).2 = none)
    (fi wi : Nat)
    (hfi1 : (scriptLoop s.pendingFlushes.length qs s).1.pendingFlushes.length ≤ fi)
    (hfi2 : fi < ((Script (qs ++ rs)) s).1.pendingFlushes.length)
    (hwi1 : s.pendingFlushes.length ≤ wi)
    (hwi2 : wi < (scriptLoop s.pendingFlushes.length qs s).1.pendingFlushes.length) :
    wi ∈ (((Script (qs ++ rs)) s).1.pendingFlushes.getD fi default).waits := by
  have hScript : ((Script (qs ++ rs)) s).1.pendingFlushes
      = (scriptLoop s.pendingFlushes.length (qs ++ rs) s).1.pendingFlushes := rfl
  rw [hScript] at hfi2 ⊢
  rw [scriptLoop_append] at hsucc hfi2 ⊢
  have hqext : ∀ p ∈ qs, PipeExtends p :=
    fun q hq => hext q (List.mem_append.mpr (Or.inl hq))
  have hrext : ∀ p ∈ rs, PipeExtends p :=
    fun q hq => hext q (List.mem_append.mpr (Or.inr hq))
  have hqpre := scriptLoop_extends s.pendingFlushes.length qs s hqext
  generalize hq : scriptLoop s.pendingFlushes.length qs s = r at hsucc hfi2 hfi1 hwi2 hqpre ⊢
  obtain ⟨s1, e1⟩ := r
  cases e1 with
  | some e => exact Option.noConfusion hsucc
  | none =>
    exact scriptLoop_waits s.pendingFlushes.length rs s1 hrext hqpre.length_le
      hsucc fi wi hfi1 hfi2 hwi1 hwi2

/-- A stage that registers one trivially succeeding flusher. -/
def pAdd : Pipe := fun s => (s.AddFlusher fun _ => none, none)

theorem pAdd_extends : PipeExtends pAdd :=
  fun s => ⟨[⟨s.core, fun _ => none, [], []⟩], rfl⟩

theorem script_waits_on_earlier_stages_witness :
    0 ∈ (((Script ([pAdd] ++ [pAdd])) s0).1.pendingFlushes.getD 1 default).waits := by
  have hext : ∀ p ∈ ([pAdd] ++ [pAdd] : List Pipe), PipeExtends p := by
    intro p hp
    have hpp : p = pAdd := by
      rcases List.mem_append.mp hp with h | h <;> simpa using h
    rw [hpp]
    exact pAdd_extends
  have hsucc : (scriptLoop s0.pendingFlushes.length ([pAdd] ++ [pAdd]) s0).2 = none := by
    decide
  have hfi1 : (scriptLoop s0.pendingFlushes.length [pAdd] s0).1.pendingFlushes.length ≤ 1 := by
    decide
  have hfi2 : 1 < ((Script ([pAdd] ++ [pAdd])) s0).1.pendingFlushes.length := by decide
  have hwi1 : s0.pendingFlushes.length ≤ 0 := by decide
  have hwi2 : 0 < (scriptLoop s0.pendingFlushes.length [pAdd] s0).1.pendingFlushes.length := by
    decide
  exact script_waits_on_earlier_stages [pAdd] [pAdd] s0 hext hsucc 1 0 hfi1 hfi2 hwi1 hwi2

/-! ### The Line error path (C6) -/

/-- C6 counterexample: in `Line(pNop, pFail, pNop)` the second stage's
configuration fails.  The error is propagated and the reader end `pr 0`
feeding that stage is released, but the writer end `pw 1` created for that
stage's output is never released on this path — the source's error path calls
only `closeIn.Close()` — refuting the claim that both ends of the junction
are released. -/
theorem line_error_both_ends_cex :
    (lineRunFull [pNop, pFail, pNop] s0).2 = some "boom"
    ∧ Stream.pr 0 ∈ (lineRunFull [pNop, pFail, pNop] s0).1.closed
    ∧ Stream.pw 1 ∉ (lineRunFull [pNop, pFail, pNop] s0).1.closed := by
  decide

/-- Unfolding of `lineLoop` for a non-final stage whose configuration fails:
`closeIn` (wrapping the junction reader `r` with count 1) is released —
closing `r` — and the error is returned at once; the freshly created writer
refCloser is left untouched. -/
theorem lineLoop_cons_err (endIdx : Nat) (endStdout : Stream) (p : Pipe) (rest : List Pipe)
    (i : Nat) (r : Stream) (st : LineSt) (s3 : State) (err : Err)
    (hi : (i == endIdx) = false)
    (hp : p { st.s with Stdout := Stream.pw st.s.next, next := st.s.next + 1 }
        = (s3, some err)) :
    lineLoop endIdx endStdout (p :: rest) i (some r) st
      = ({ s := s3,
           rcs := ((st.rcs ++ [(⟨r, 1⟩ : refCloser)])
              ++ [(⟨Stream.pw st.s.next, 1⟩ : refCloser)]).set st.rcs.length
              (⟨r, 0⟩ : refCloser),
           closed := st.closed ++ [r] }, some err) := by
  have hget : ((st.rcs ++ [(⟨r, 1⟩ : refCloser)])
      ++ [(⟨Stream.pw st.s.next, 1⟩ : refCloser)]).get? st.rcs.length
      = some (⟨r, 1⟩ : refCloser) := by
    rw [List.append_assoc, List.get?_append_right (le_refl _)]
    simp
  simp only [lineLoop, Option.map_some', hi, Bool.false_eq_true, if_false]
  rw [hp]
  simp only [rcClose, hget]
  simp [refCloser.Close, (by decide : wrap32 0 = 0)]

/-- C6 (amended): when stage `i`'s configuration function returns an error,
`Line` propagates that error immediately without configuring any later stage
(the outcome does not depend on the remaining stages), and it releases the
reader end of the junction feeding stage `i`; the writer end created for
stage `i`'s output, however, is not released on this path. -/
theorem line_error_closes_reader_only (endIdx i k : Nat) (endStdout : Stream)
    (p : Pipe) (rest rest' : List Pipe) (st : LineSt) (err : Err)
    (hp : ∀ s, (p s).2 = some err) (hi : i ≠ endIdx)
    (hfresh : Stream.pw st.s.next ∉ st.closed) :
    (lineLoop endIdx endStdout (p :: rest) i (some (Stream.pr k)) st
        = lineLoop endIdx endStdout (p :: rest') i (some (Stream.pr k)) st)
    ∧ (lineLoop endIdx endStdout (p :: rest) i (some (Stream.pr k)) st).2 = some err
    ∧ (lineLoop endIdx endStdout (p :: rest) i (some (Stream.pr k)) st).1.closed
        = st.closed ++ [Stream.pr k]
    ∧ Stream.pw st.s.next
        ∉ (lineLoop endIdx endStdout (p :: rest) i (some (Stream.pr k)) st).1.closed := by
  have hbeq : (i == endIdx) = false := beq_eq_false_iff_ne.mpr hi
  rcases hx : p { st.s with Stdout := Stream.pw st.s.next, next := st.s.next + 1 } with ⟨s3, e⟩
  have he : e = some err := by
    have h2 := hp { st.s with Stdout := Stream.pw st.s.next, next := st.s.next + 1 }
    rw [hx] at h2
    exact h2
  subst he
  have h1 := lineLoop_cons_err endIdx endStdout p rest i (Stream.pr k) st s3 err hbeq hx
  have h2 := lineLoop_cons_err endIdx endStdout p rest' i (Stream.pr k) st s3 err hbeq hx
  refine ⟨h1.trans h2.symm, ?_, ?_, ?_⟩
  · rw [h1]
  · rw [h1]
  · rw [h1]
    simp [hfresh]

/-- The threaded Line state a witness run starts from. -/
def wLineSt : LineSt := ⟨s0, [], []⟩

theorem line_error_closes_reader_only_witness :
    (lineLoop 2 (Stream.ext 1) (pFail :: [pNop]) 1 (some (Stream.pr 0)) wLineSt
        = lineLoop 2 (Stream.ext 1) (pFail :: []) 1 (some (Stream.pr 0)) wLineSt)
    ∧ (lineLoop 2 (Stream.ext 1) (pFail :: [pNop]) 1 (some (Stream.pr 0)) wLineSt).2
        = some "boom"
    ∧ (lineLoop 2 (Stream.ext 1) (pFail :: [pNop]) 1 (some (Stream.pr 0)) wLineSt).1.closed
        = wLineSt.closed ++ [Stream.pr 0]
    ∧ Stream.pw wLineSt.s.next
        ∉ (lineLoop 2 (Stream.ext 1) (pFail :: [pNop]) 1 (some (Stream.pr 0)) wLineSt).1.closed :=
  line_error_closes_reader_only 2 1 0 (Stream.ext 1) pFail [pNop] [] wLineSt "boom"
    (fun _ => rfl) (by decide) (by decide)

/-! ### Filter (C9) -/

theorem dropWhile_head_false {α : Type} (p : α → Bool) :
    ∀ (l : List α) (c : α) (rs : List α), l.dropWhile p = c :: rs → p c = false := by
  intro l
  induction l with
  | nil => intro c rs h; cases h
  | cons x xs ih =>
    intro c rs h
    rw [List.dropWhile_cons] at h
    by_cases hx : p x
    · rw [if_pos hx] at h
      exact ih c rs h
    · rw [if_neg hx] at h
      cases h
      simpa using hx

theorem linesCons_ne_nil (c : Char) (parts : List Str) : linesCons c parts ≠ [] := by
  unfold linesCons
  split
  · simp
  · split <;> simp

theorem linesOf_ne_nil : ∀ l : Str, linesOf l ≠ []
  | [] => by simp [linesOf]
  | c :: cs => linesCons_ne_nil c (linesOf cs)

theorem linesOf_no_newline : ∀ l : Str, (∀ c ∈ l, c ≠ '\n') → linesOf l = [l] := by
  intro l
  induction l with
  | nil => intro _; rfl
  | cons c cs ih =>
    intro h
    have hc : c ≠ '\n' := h c (List.mem_cons_self c cs)
    have ihcs := ih fun x hx => h x (List.mem_cons_of_mem c hx)
    show linesCons c (linesOf cs) = [c :: cs]
    rw [ihcs]
    simp [linesCons, hc]

theorem linesOf_append_newline :
    ∀ (pre rs : Str), (∀ c ∈ pre, c ≠ '\n') →
      linesOf (pre ++ '\n' :: rs) = pre :: linesOf rs := by
  intro pre
  induction pre with
  | nil =>
    intro rs _
    show linesCons '\n' (linesOf rs) = [] :: linesOf rs
    simp [linesCons]
  | cons c pre' ih =>
    intro rs h
    have hc : c ≠ '\n' := h c (List.mem_cons_self c pre')
    have ihp := ih rs fun x hx => h x (List.mem_cons_of_mem c hx)
    show linesCons c (linesOf (pre' ++ '\n' :: rs)) = (c :: pre') :: linesOf rs
    rw [ihp]
    simp [linesCons, hc]

theorem filterSpec_no_newline (f : String → Bool) (l : Str) (hl : l ≠ [])
    (h : ∀ c ∈ l, c ≠ '\n') :
    filterSpec f l = if f (String.mk (trimRightCRLF l)) then l else [] := by
  unfold filterSpec
  rw [linesOf_no_newline l h]
  simp [hl]

theorem filterSpec_split (f : String → Bool) (pre rs : Str)
    (hpre : ∀ c ∈ pre, c ≠ '\n') :
    filterSpec f (pre ++ '\n' :: rs) =
      (if f (String.mk (trimRightCRLF (pre ++ ['\n']))) then pre ++ ['\n'] else []) ++
        filterSpec f rs := by
  unfold filterSpec
  rw [linesOf_append_newline pre rs hpre]
  obtain ⟨ph, pt, hpt⟩ := List.exists_cons_of_ne_nil (linesOf_ne_nil rs)
  rw [hpt]
  have hdl : (pre :: ph :: pt).dropLast = pre :: (ph :: pt).dropLast := rfl
  have hgl : (pre :: ph :: pt).getLastD [] = (ph :: pt).getLastD [] := by
    rw [List.getLastD_cons, List.getLastD_cons, List.getLastD_cons]
  rw [hdl, hgl]
  simp only [List.map_cons, List.filter_cons]
  by_cases hq : f (String.mk (trimRightCRLF (pre ++ ['\n']))) = true
  · simp [hq, List.append_assoc]
  · simp [hq]

theorem filter_eq_spec_aux (f : String → Bool) :
    ∀ (n : Nat) (input : Str), input.length ≤ n → Filter f input = filterSpec f input := by
  intro n
  induction n with
  | zero =>
    intro input h
    have hnil : input = [] := List.length_eq_zero.mp (Nat.le_zero.mp h)
    subst hnil
    rw [show Filter f [] = [] from by simp [Filter]]
    simp [filterSpec, linesOf]
  | succ n ih =>
    intro input hlen
    cases input with
    | nil =>
      rw [show Filter f [] = [] from by simp [Filter]]
      simp [filterSpec, linesOf]
    | cons a as =>
      have hpre : ∀ c ∈ (a :: as).takeWhile (fun ch => ch != '\n'), c ≠ '\n' := by
        intro c hc
        simpa using List.mem_takeWhile_imp hc
      simp only [Filter]
      split
      · rename_i heq
        have hinput : a :: as = (a :: as).takeWhile (fun ch => ch != '\n') := by
          conv_lhs => rw [← List.takeWhile_append_dropWhile (p := fun ch => ch != '\n')
            (l := a :: as)]
          rw [heq, List.append_nil]
        have hnonl : ∀ c ∈ a :: as, c ≠ '\n' := by
          rw [hinput]
          exact hpre
        rw [filterSpec_no_newline f (a :: as) (List.cons_ne_nil a as) hnonl, ← hinput]
      · rename_i c rs heq
        have hc : c = '\n' := by
          have := dropWhile_head_false (fun ch => ch != '\n') (a :: as) c rs heq
          simpa using this
        subst hc
        have hinput : a :: as = ((a :: as).takeWhile (fun ch => ch != '\n')) ++ '\n' :: rs := by
          conv_lhs => rw [← List.takeWhile_append_dropWhile (p := fun ch => ch != '\n')
            (l := a :: as)]
          rw [heq]
        have hrs : rs.length ≤ n := by
          have hsub := (List.dropWhile_sublist (l := a :: as)
            (p := fun ch => ch != '\n')).length_le
          rw [heq] at hsub
          simp only [List.length_cons] at hsub hlen
          omega
        rw [ih rs hrs]
        conv_rhs => rw [hinput]
        rw [filterSpec_split f _ rs hpre]

/-- C9: the `Filter` stage writes to stdout exactly those input lines, in
input order and with their original terminator bytes, for which the predicate
applied to the line with trailing CR/LF stripped returns true; rejected lines
are omitted; and the final unterminated fragment before end-of-stream is
still passed to the predicate once and emitted if accepted — i.e. the
source's read loop equals the spec's split-filter-join description. -/
theorem filter_matches_spec (f : String → Bool) (input : Str) :
    Filter f input = filterSpec f input :=
  filter_eq_spec_aux f input.length input le_rfl

theorem addflusher_snapshot_immune_witness :
    ((Alias.AddFlusher wAliasHeap wAliasState).1.2.pending
        = wAliasState.pending ++ [(Alias.AddFlusher wAliasHeap wAliasState).2])
    ∧ ((Alias.AddFlusher wAliasHeap wAliasState).1.1.read
        (Alias.AddFlusher wAliasHeap wAliasState).2 = wAliasHeap.read wAliasState.envRef)
    ∧ ((Alias.SetEnvVar (Alias.AddFlusher wAliasHeap wAliasState).1.1
          (Alias.AddFlusher wAliasHeap wAliasState).1.2 "A".data "2".data).1.read
        (Alias.AddFlusher wAliasHeap wAliasState).2 = wAliasHeap.read wAliasState.envRef) :=
  addflusher_snapshot_immune wAliasHeap wAliasState "A".data "2".data (by decide)

end Pipe
